import Mathlib

/-!
Verification development for the multi-line image splitter script
(split_multiline_images.py).  The script scans a ground-truth directory
for *.gt.txt annotation files, classifies each as single- or multi-line,
splits the paired image of every multi-line record into horizontal bands
(one per text line), writes per-line image/annotation output pairs, and
moves the processed originals into a backup subdirectory.

The embedding below models strings as lists of characters, the
ground-truth directory as an association list from file names to file
data, and the whole run as a pure function mirroring main().
-/

/-- File names (and text in general) are modelled as lists of characters. -/
abbrev FName := List Char

/-! ### Python string primitives used by the script -/

/-- Python str.strip(): remove leading and trailing whitespace. -/
def pyStrip (s : FName) : FName :=
  ((s.dropWhile Char.isWhitespace).reverse.dropWhile Char.isWhitespace).reverse

/-- Helper for pyLines: accumulate characters of the current line (reversed)
and split at every newline, keeping the newline on the produced line just as
Python file iteration does. -/
def splitLinesAcc (acc : List Char) : List Char → List (List Char)
  | [] => if acc.isEmpty then [] else [acc.reverse]
  | c :: cs =>
    if c = '\n' then (acc.reverse ++ ['\n']) :: splitLinesAcc [] cs
    else splitLinesAcc (c :: acc) cs

/-- Iterating an open text file in Python yields its lines with the
terminating newline kept; a last line without a newline is still yielded,
and an empty file yields nothing. -/
def pyLines (s : List Char) : List (List Char) :=
  splitLinesAcc [] s

/-- Split a character list at its first dot: returns the part before the
dot and the part after it, or none when there is no dot.  Used to model
pathlib stem computation on the reversed name. -/
def splitAtFirstDot : List Char → Option (List Char × List Char)
  | [] => none
  | c :: cs =>
    if c = '.' then some ([], cs)
    else
      match splitAtFirstDot cs with
      | some (a, b) => some (c :: a, b)
      | none => none

/-- pathlib PurePath.stem: the file name without its last suffix.  The last
dot yields a suffix only when it is neither the first nor the last
character of the name. -/
def pyStem (s : FName) : FName :=
  match splitAtFirstDot s.reverse with
  | some (ext, rest) => if ext.isEmpty ∨ rest.isEmpty then s else rest.reverse
  | none => s

/-- Python str.replace for the concrete pattern of the script:
remove every leftmost non-overlapping occurrence of the substring
made of a dot, the letter g and the letter t (the pattern of
stem.replace with the second argument empty). -/
def removeDotGt : List Char → List Char
  | '.' :: 'g' :: 't' :: s => removeDotGt s
  | c :: s => c :: removeDotGt s
  | [] => []

/-- Whether the dot-g-t pattern occurs as a substring. -/
def hasDotGt : List Char → Bool
  | '.' :: 'g' :: 't' :: _ => true
  | _ :: s => hasDotGt s
  | [] => false

/-- Line 55 of the script: base_name is the stem of the annotation file
with every occurrence of the dot-g-t substring removed. -/
def gtBaseName (fname : FName) : FName :=
  removeDotGt (pyStem fname)

/-- Suffix test, used to model glob of star followed by .gt.txt. -/
def hasSuf (suf s : FName) : Bool :=
  decide (s.drop (s.length - suf.length) = suf)

/-! ### Decimal formatting (the line_num:03d format specifier) -/

/-- One decimal digit as a character. -/
def digitChar : Nat → Char
  | 0 => '0' | 1 => '1' | 2 => '2' | 3 => '3' | 4 => '4'
  | 5 => '5' | 6 => '6' | 7 => '7' | 8 => '8' | 9 => '9'
  | _ => '*'

/-- Decimal representation with explicit fuel (the fuel always suffices
because a number needs at most as many digits as its value). -/
def natReprAux : Nat → Nat → List Char
  | 0, _ => []
  | fuel + 1, n =>
    if n < 10 then [digitChar n]
    else natReprAux fuel (n / 10) ++ [digitChar (n % 10)]

/-- Decimal representation of a natural number. -/
def natRepr (n : Nat) : List Char :=
  natReprAux (n + 1) n

/-- Python format n:03d — pad the decimal representation with leading
zeros to width three (longer representations are kept whole). -/
def pad3 (n : Nat) : List Char :=
  List.replicate (3 - (natRepr n).length) '0' ++ natRepr n

/-- Decimal parser, used only as a left inverse of pad3 in proofs. -/
def parseDec (s : List Char) : Nat :=
  s.foldl (fun a c => a * 10 + (c.toNat - 48)) 0

/-! ### Crop-band geometry (lines 103-112 of the script) -/

/-- line_height = img_height // line_count. -/
def line_height (img_height line_count : Nat) : Nat :=
  img_height / line_count

/-- y_start = (line_num - 1) * line_height. -/
def y_start (lh line_num : Nat) : Nat :=
  (line_num - 1) * lh

/-- y_end = line_num * line_height if line_num < line_count else img_height. -/
def y_end (img_height lh line_count line_num : Nat) : Nat :=
  if line_num < line_count then line_num * lh else img_height

/-- The N crop rectangles (left, upper, right, lower) the loop would
produce for an image of the given width and height split into N lines. -/
def cropRects (w h n : Nat) : List (Nat × Nat × Nat × Nat) :=
  (List.range n).map fun k =>
    (0, y_start (line_height h n) (k + 1), w, y_end h (line_height h n) n (k + 1))

/-! ### Filesystem model -/

/-- Contents of a file in the ground-truth directory: a raster image with
its pixel dimensions, or a text file with its character content. -/
inductive FData where
  | img (width height : Nat) : FData
  | txt (content : List Char) : FData
deriving DecidableEq, Repr

/-- First-match lookup in a directory modelled as an association list. -/
def lookupF : List (FName × FData) → FName → Option FData
  | [], _ => none
  | (n, d) :: rest, nm => if n = nm then some d else lookupF rest nm

/-- Writing a file: truncate-or-create semantics of open for write and of
image save (an existing entry of the same name is replaced). -/
def setF (fs : List (FName × FData)) (nm : FName) (d : FData) : List (FName × FData) :=
  (fs.filter fun p => p.1 ≠ nm) ++ [(nm, d)]

/-- Removing a file (the source side of a move). -/
def removeF (fs : List (FName × FData)) (nm : FName) : List (FName × FData) :=
  fs.filter fun p => p.1 ≠ nm

/-- Apply a list of writes in order. -/
def applyWrites (fs : List (FName × FData)) : List (FName × FData) → List (FName × FData)
  | [] => fs
  | (nm, d) :: ws => applyWrites (setF fs nm d) ws

/-- Number of files matching glob star .gt.txt in the directory
(line 150 of the script). -/
def countGtFiles (fs : List (FName × FData)) : Nat :=
  (fs.filter fun p => hasSuf ".gt.txt".data p.1).length

/-! ### Output naming (lines 114-117 of the script) -/

/-- Name of the i-th output image: base_name, _line, i zero-padded to
three digits, and the fixed .png extension. -/
def imgNameOf (base : FName) (i : Nat) : FName :=
  base ++ "_line".data ++ pad3 i ++ ".png".data

/-- Name of the i-th output annotation file. -/
def gtNameOf (base : FName) (i : Nat) : FName :=
  base ++ "_line".data ++ pad3 i ++ ".gt.txt".data

/-- The recognized image extensions in the exact priority order of
line 80 of the script. -/
def IMG_EXTS : List FName :=
  [".png".data, ".jpg".data, ".jpeg".data, ".tif".data, ".tiff".data,
   ".PNG".data, ".JPG".data, ".JPEG".data]

/-! ### Ground-truth scanner (lines 46-57) -/

/-- MAX_LINES = 1 (line 28). -/
def MAX_LINES : Nat := 1

/-- Line 50: strip every raw line and discard the ones that become empty. -/
def scanLines (content : List Char) : List FName :=
  ((pyLines content).map pyStrip).filter fun t => !t.isEmpty

/-- Per-file classification of the scanner: a text file whose name
matches the glob pattern and whose stripped non-empty line count exceeds
MAX_LINES yields a record of its derived base name and its lines. -/
def classify (nm : FName) (d : FData) : Option (FName × List FName) :=
  match d with
  | FData.img _ _ => none
  | FData.txt content =>
    if hasSuf ".gt.txt".data nm then
      if MAX_LINES < (scanLines content).length then
        some (gtBaseName nm, scanLines content)
      else none
    else none

/-- The multi-line set, in scan order. -/
def scanWork (work : List (FName × FData)) : List (FName × List FName) :=
  work.filterMap fun p => classify p.1 p.2

/-! ### Line splitter (lines 77-139) -/

/-- Python enumerate with a start index. -/
def pyEnum : Nat → List α → List (Nat × α)
  | _, [] => []
  | k, a :: as => (k, a) :: pyEnum (k + 1) as

/-- The two writes performed for one kept line: the cropped image of the
band's height under the PNG output name, and the annotation file holding
the text plus a single newline. -/
def lineWrites (base : FName) (w h n : Nat) (p : Nat × FName) : List (FName × FData) :=
  [(imgNameOf base p.1,
    FData.img w (y_end h (line_height h n) n p.1 - y_start (line_height h n) p.1)),
   (gtNameOf base p.1, FData.txt (p.2 ++ ['\n']))]

/-- The writes performed by the per-line loop (lines 106-128): for every
line whose text is non-empty, one cropped image and one annotation file. -/
def emitOutputs (base : FName) (w h : Nat) (lines : List FName) : List (FName × FData) :=
  ((pyEnum 1 lines).filter fun p => !p.2.isEmpty).flatMap
    (lineWrites base w h lines.length)

/-- How many output pairs the loop emits (the total_split increments). -/
def emittedCount (lines : List FName) : Nat :=
  ((pyEnum 1 lines).filter fun p => !p.2.isEmpty).length

/-- First extension whose candidate file exists (lines 79-84). -/
def firstImg (work : List (FName × FData)) (base : FName) : List FName → Option (FName × FData)
  | [] => none
  | ext :: rest =>
    match lookupF work (base ++ ext) with
    | some d => some (base ++ ext, d)
    | none => firstImg work base rest

/-- Resolve the paired image of a base name. -/
def findImage (work : List (FName × FData)) (base : FName) : Option (FName × FData) :=
  firstImg work base IMG_EXTS

/-- The exceptions the model can raise inside the per-record try block. -/
inductive PErr where
  | openFail : PErr
  | notAnImage : PErr
  | zeroDiv : PErr
  | moveFail : PErr
deriving DecidableEq, Repr

/-- Result of the try block of one record: the directory and backup
contents after the effects that happened before success or failure, the
number of per-line outputs emitted, and the exception if one was raised. -/
structure TryOut where
  work : List (FName × FData)
  backup : List (FName × FData)
  emitted : Nat
  err : Option PErr
deriving DecidableEq, Repr

/-- The try block of lines 94-135 for one record: open the image (fails
on a text file), compute the bands, write every per-line output pair,
then move the original image and the recomputed annotation path into the
backup directory.  A failure keeps all effects performed so far (no
rollback). -/
def processTry (work backup : List (FName × FData)) (imgName base : FName)
    (lines : List FName) : TryOut :=
  match lookupF work imgName with
  | none => ⟨work, backup, 0, some PErr.openFail⟩
  | some (FData.txt _) => ⟨work, backup, 0, some PErr.notAnImage⟩
  | some (FData.img w h) =>
    if lines.length = 0 then ⟨work, backup, 0, some PErr.zeroDiv⟩
    else
      let work1 := applyWrites work (emitOutputs base w h lines)
      match lookupF work1 imgName with
      | none => ⟨work1, backup, emittedCount lines, some PErr.moveFail⟩
      | some dImg =>
        let work2 := removeF work1 imgName
        let backup1 := setF backup imgName dImg
        match lookupF work2 (base ++ ".gt.txt".data) with
        | none => ⟨work2, backup1, emittedCount lines, some PErr.moveFail⟩
        | some dGt =>
          ⟨removeF work2 (base ++ ".gt.txt".data),
           setF backup1 (base ++ ".gt.txt".data) dGt,
           emittedCount lines, none⟩

/-- Whole-run state.  succRecords is a specification-level observable
counting the records whose try block completed without an exception; the
script itself keeps no such counter. -/
structure St where
  work : List (FName × FData)
  backup : List (FName × FData)
  backupExists : Bool
  errors : Nat
  totalSplit : Nat
  succRecords : Nat
deriving DecidableEq, Repr

/-- Processing of one record of the multi-line set (lines 77-139): find
the paired image, run the try block, convert any exception into an error
message and continue. -/
def step (st : St) (rec : FName × List FName) : St :=
  match findImage st.work rec.1 with
  | none => { st with errors := st.errors + 1 }
  | some (imgName, _) =>
    let r := processTry st.work st.backup imgName rec.1 rec.2
    match r.err with
    | none =>
      { st with work := r.work, backup := r.backup,
                totalSplit := st.totalSplit + r.emitted,
                succRecords := st.succRecords + 1 }
    | some _ =>
      { st with work := r.work, backup := r.backup,
                totalSplit := st.totalSplit + r.emitted,
                errors := st.errors + 1 }

/-- The batch loop over the multi-line set. -/
def runRecords (recs : List (FName × List FName)) (st : St) : St :=
  recs.foldl step st

/-- backup_dir.mkdir(exist_ok=True) — idempotent creation (line 73). -/
def mkBackupDir (st : St) : St :=
  { st with backupExists := true }

/-- The values printed by the final summary (lines 141-151): the number
printed after the successfully-split message, the backup directory name,
and the number of files matching glob star .gt.txt after the run. -/
structure Summary where
  reportedSplitCount : Nat
  backupDirName : FName
  reportedGtCount : Nat
deriving DecidableEq, Repr

/-- Result of a whole run: process exit code, the summary if one was
printed, and the final state. -/
structure RunOut where
  exitCode : Nat
  summary : Option Summary
  final : St
deriving DecidableEq, Repr

/-- Initial state of a run. -/
def initSt (work backup : List (FName × FData)) (bex : Bool) : St :=
  ⟨work, backup, bex, 0, 0, 0⟩

/-- No-collision condition of a file name against one record: the name
differs from every candidate image path the record may resolve, from the
recomputed annotation path, and from every output name the record can
write.  Processing the record then leaves the file untouched. -/
def UntouchedName (nm : FName) (rec : FName × List FName) : Prop :=
  (∀ ext ∈ IMG_EXTS, nm ≠ rec.1 ++ ext) ∧ nm ≠ rec.1 ++ ".gt.txt".data ∧
  ∀ i, nm ≠ imgNameOf rec.1 i ∧ nm ≠ gtNameOf rec.1 i

/-- main(): abort with exit code 1 when the ground-truth directory is
missing; otherwise scan, return early when no multi-line file exists,
else create the backup directory, process every record, and print the
summary. -/
def mainRun (rootExists : Bool) (work backup : List (FName × FData)) (bex : Bool) : RunOut :=
  if rootExists then
    let recs := scanWork work
    if recs.isEmpty then ⟨0, none, initSt work backup bex⟩
    else
      let stF := runRecords recs (mkBackupDir (initSt work backup bex))
      ⟨0, some ⟨recs.length, "multiline_originals".data, countGtFiles stF.work⟩, stF⟩
  else ⟨1, none, initSt work backup bex⟩

/-! ### Lemmas about the base-name computation (C9 machinery) -/

lemma removeDotGt_cons (c : Char) (s : List Char) :
    removeDotGt (c :: s) =
      if c = '.' ∧ s.take 2 = ['g', 't'] then removeDotGt (s.drop 2)
      else c :: removeDotGt s := by
  match s with
  | [] => simp [removeDotGt]
  | [d] =>
    by_cases hc : c = '.' <;> by_cases hd : d = 'g' <;>
      simp_all [removeDotGt]
  | d :: e :: s' =>
    by_cases hc : c = '.' <;> by_cases hd : d = 'g' <;> by_cases he : e = 't' <;>
      simp_all [removeDotGt]

lemma hasDotGt_cons (c : Char) (s : List Char) :
    hasDotGt (c :: s) =
      ((decide (c = '.') && decide (s.take 2 = ['g', 't'])) || hasDotGt s) := by
  match s with
  | [] => simp [hasDotGt]
  | [d] =>
    by_cases hc : c = '.' <;> by_cases hd : d = 'g' <;>
      simp_all [hasDotGt]
  | d :: e :: s' =>
    by_cases hc : c = '.' <;> by_cases hd : d = 'g' <;> by_cases he : e = 't' <;>
      simp_all [hasDotGt]

lemma pyStem_gtTxt (X : List Char) : pyStem (X ++ ".gt.txt".data) = X ++ ".gt".data := by
  have h1 : (X ++ ".gt.txt".data).reverse
      = 't' :: 'x' :: 't' :: '.' :: ('t' :: 'g' :: '.' :: X.reverse) := by
    simp [List.reverse_append]
  simp [pyStem, h1, splitAtFirstDot, List.reverse_append]

lemma take2_eq_gt {s : List Char} (ht : s.take 2 = ['g', 't']) :
    s = 'g' :: 't' :: s.drop 2 := by
  cases s with
  | nil => simp at ht
  | cons a as =>
    cases as with
    | nil => simp at ht
    | cons b bs =>
      simp at ht
      obtain ⟨ha, hb⟩ := ht
      subst ha; subst hb; rfl

lemma removeDotGt_len_le (s : List Char) : (removeDotGt s).length ≤ s.length := by
  induction s using removeDotGt.induct with
  | case1 s ih => simp [removeDotGt]; omega
  | case2 c s h ih =>
    rw [removeDotGt_cons]
    split
    · rename_i hcond
      exact absurd (take2_eq_gt hcond.2) (fun hs => h (s.drop 2) hcond.1 hs)
    · simpa using Nat.succ_le_succ ih
  | case3 => simp [removeDotGt]

lemma removeDotGt_append_le : ∀ (n : Nat) (Y : List Char), Y.length ≤ n →
    (removeDotGt (Y ++ ['.', 'g', 't'])).length ≤ Y.length := by
  intro n
  induction n with
  | zero =>
    intro Y hY
    have : Y = [] := by
      cases Y with
      | nil => rfl
      | cons a as => simp at hY
    subst this
    simp [removeDotGt]
  | succ n ih =>
    intro Y hY
    cases Y with
    | nil => simp [removeDotGt]
    | cons c Y' =>
      rw [List.cons_append, removeDotGt_cons]
      split
      · rename_i hcond
        match Y', hcond with
        | [], ⟨hc, ht⟩ => simp at ht
        | [d], ⟨hc, ht⟩ => simp at ht
        | d :: e :: Y'', ⟨hc, ht⟩ =>
          simp at ht
          obtain ⟨hd, he⟩ := ht
          simp only [List.cons_append, List.drop_succ_cons, List.drop_zero] at *
          have hlen : Y''.length ≤ n := by simp at hY; omega
          have := ih Y'' hlen
          simp
          omega
      · have hlen : Y'.length ≤ n := by simp at hY; omega
        have := ih Y' hlen
        simp
        omega

lemma removeDotGt_append_lt : ∀ (n : Nat) (X : List Char), X.length ≤ n →
    hasDotGt X = true →
    (removeDotGt (X ++ ['.', 'g', 't'])).length < X.length := by
  intro n
  induction n with
  | zero =>
    intro X hX hdot
    cases X with
    | nil => simp [hasDotGt] at hdot
    | cons a as => simp at hX
  | succ n ih =>
    intro X hX hdot
    cases X with
    | nil => simp [hasDotGt] at hdot
    | cons c X' =>
      rw [List.cons_append, removeDotGt_cons]
      rw [hasDotGt_cons] at hdot
      split
      · rename_i hcond
        obtain ⟨hc, ht⟩ := hcond
        match X', ht with
        | [], ht => simp at ht
        | [d], ht => simp at ht
        | d :: e :: X'', ht =>
          simp only [List.cons_append, List.take_succ_cons, List.take_zero] at ht
          injection ht with h1 h2
          injection h2 with h3 h4
          subst h1; subst h3
          have := removeDotGt_append_le X''.length X'' (Nat.le_refl _)
          simp only [List.cons_append, List.drop_succ_cons, List.drop_zero,
            List.length_cons] at *
          omega
      · rename_i hA
        have hX' : hasDotGt X' = true := by
          rcases Bool.or_eq_true_iff.mp hdot with h1 | h1
          · exfalso
            have hc : c = '.' := by
              have := Bool.and_eq_true_iff.mp h1
              exact of_decide_eq_true this.1
            have ht : X'.take 2 = ['g', 't'] := by
              have := Bool.and_eq_true_iff.mp h1
              exact of_decide_eq_true this.2
            have hshape := take2_eq_gt ht
            apply hA
            refine ⟨hc, ?_⟩
            rw [hshape]
            simp
          · exact h1
        have hlen : X'.length ≤ n := by simp at hX; omega
        have := ih X' hlen hX'
        simp
        omega

lemma removeDotGt_append_eq : ∀ (n : Nat) (X : List Char), X.length ≤ n →
    hasDotGt X = false →
    removeDotGt (X ++ ['.', 'g', 't']) = X := by
  intro n
  induction n with
  | zero =>
    intro X hX hdot
    cases X with
    | nil => rfl
    | cons a as => simp at hX
  | succ n ih =>
    intro X hX hdot
    cases X with
    | nil => rfl
    | cons c X' =>
      rw [List.cons_append, removeDotGt_cons]
      rw [hasDotGt_cons] at hdot
      have hnd : ¬(c = '.' ∧ X'.take 2 = ['g', 't']) := by
        intro ⟨hc, ht⟩
        simp [hc, ht] at hdot
      have hX'dot : hasDotGt X' = false := by
        rcases Bool.or_eq_false_iff.mp hdot with ⟨_, h2⟩
        exact h2
      have hlen : X'.length ≤ n := by simp at hX; omega
      split
      · rename_i hcond
        obtain ⟨hc, ht⟩ := hcond
        match X', ht, hX'dot, hlen with
        | [], ht, _, _ => simp at ht
        | [d], ht, _, _ => simp at ht
        | d :: e :: X'', ht, hX'dot, hlen =>
          exfalso
          simp only [List.cons_append, List.take_succ_cons, List.take_zero] at ht
          injection ht with h1 h2
          injection h2 with h3 h4
          exact hnd ⟨hc, by simp [h1, h3]⟩
      · rw [ih X' hlen hX'dot]

lemma hasDotGt_append_pat (X : List Char) : hasDotGt (X ++ ['.', 'g', 't']) = true := by
  induction X with
  | nil => rfl
  | cons c X' ih =>
    rw [List.cons_append, hasDotGt_cons, ih]
    simp

lemma gtBaseName_append_iff (X : List Char) :
    gtBaseName (X ++ ".gt.txt".data) = X ↔ hasDotGt X = false := by
  constructor
  · intro h
    by_contra hdot
    have hdot' : hasDotGt X = true := by
      cases h' : hasDotGt X with
      | false => exact absurd h' hdot
      | true => rfl
    have hlt := removeDotGt_append_lt X.length X (Nat.le_refl _) hdot'
    rw [gtBaseName, pyStem_gtTxt] at h
    have : ".gt".data = ['.', 'g', 't'] := rfl
    rw [this] at h
    rw [h] at hlt
    exact Nat.lt_irrefl _ hlt
  · intro hdot
    rw [gtBaseName, pyStem_gtTxt]
    have : ".gt".data = ['.', 'g', 't'] := rfl
    rw [this]
    exact removeDotGt_append_eq X.length X (Nat.le_refl _) hdot

/-! ### Supporting lemmas for the run model -/

lemma parseDec_append (xs ys : List Char) :
    parseDec (xs ++ ys) = ys.foldl (fun a c => a * 10 + (c.toNat - 48)) (parseDec xs) := by
  simp [parseDec, List.foldl_append]

lemma digitChar_toNat {d : Nat} (hd : d < 10) : (digitChar d).toNat - 48 = d := by
  interval_cases d <;> decide

lemma parseDec_natReprAux : ∀ (fuel n : Nat), n < fuel →
    parseDec (natReprAux fuel n) = n := by
  intro fuel
  induction fuel with
  | zero => intro n h; omega
  | succ fuel ih =>
    intro n h
    rw [natReprAux]
    split
    · rename_i h10
      simp [parseDec, digitChar_toNat h10]
    · rename_i h10
      push_neg at h10
      have hdiv : n / 10 < fuel := by
        have h1 : n / 10 < n := Nat.div_lt_self (by omega) (by omega)
        omega
      rw [parseDec_append, ih (n / 10) hdiv]
      simp [digitChar_toNat (Nat.mod_lt n (by omega : 0 < 10))]
      have := Nat.div_add_mod n 10
      omega

lemma parseDec_natRepr (n : Nat) : parseDec (natRepr n) = n :=
  parseDec_natReprAux (n + 1) n (Nat.lt_succ_self n)

lemma parseDec_zeros (k : Nat) (xs : List Char) :
    parseDec (List.replicate k '0' ++ xs) = parseDec xs := by
  induction k with
  | zero => simp
  | succ k ih =>
    simp only [List.replicate_succ, List.cons_append]
    show parseDec (List.replicate k '0' ++ xs) = parseDec xs
    exact ih

lemma parseDec_pad3 (n : Nat) : parseDec (pad3 n) = n := by
  rw [pad3, parseDec_zeros, parseDec_natRepr]

lemma pad3_inj {a b : Nat} (h : pad3 a = pad3 b) : a = b := by
  have := congrArg parseDec h
  rwa [parseDec_pad3, parseDec_pad3] at this

lemma png_ne_gtTxt_suffix (xs ys : List Char) : xs ++ ".png".data ≠ ys ++ ".gt.txt".data := by
  intro h
  have h2 := congrArg List.reverse h
  rw [List.reverse_append, List.reverse_append] at h2
  have e1 : (".png".data).reverse = 'g' :: 'n' :: 'p' :: '.' :: [] := by decide
  have e2 : (".gt.txt".data).reverse = 't' :: 'x' :: 't' :: '.' :: 't' :: 'g' :: '.' :: [] := by decide
  rw [e1, e2] at h2
  simp at h2

lemma imgNameOf_inj {b : FName} {i j : Nat} (h : imgNameOf b i = imgNameOf b j) : i = j := by
  rw [imgNameOf, imgNameOf] at h
  have h1 := List.append_cancel_left (List.append_cancel_left
    (by simpa [List.append_assoc] using h : b ++ ("_line".data ++ (pad3 i ++ ".png".data))
      = b ++ ("_line".data ++ (pad3 j ++ ".png".data))))
  exact pad3_inj (List.append_cancel_right h1)

lemma gtNameOf_inj {b : FName} {i j : Nat} (h : gtNameOf b i = gtNameOf b j) : i = j := by
  rw [gtNameOf, gtNameOf] at h
  have h1 := List.append_cancel_left (List.append_cancel_left
    (by simpa [List.append_assoc] using h : b ++ ("_line".data ++ (pad3 i ++ ".gt.txt".data))
      = b ++ ("_line".data ++ (pad3 j ++ ".gt.txt".data))))
  exact pad3_inj (List.append_cancel_right h1)

lemma imgNameOf_ne_gtNameOf (b b' : FName) (i j : Nat) : imgNameOf b i ≠ gtNameOf b' j := by
  rw [imgNameOf, gtNameOf]
  intro h
  exact png_ne_gtTxt_suffix (b ++ "_line".data ++ pad3 i) (b' ++ "_line".data ++ pad3 j)
    (by simpa [List.append_assoc] using h)

lemma dot_start_ne_imgNameOf (b : FName) (t : List Char) (i : Nat) :
    b ++ '.' :: t ≠ imgNameOf b i := by
  rw [imgNameOf]
  intro h
  have h0 : b ++ ('.' :: t) = b ++ ('_' :: ("line".data ++ (pad3 i ++ ".png".data))) := by
    simpa [List.append_assoc] using h
  have h1 := List.append_cancel_left h0
  simp at h1

lemma dot_start_ne_gtNameOf (b : FName) (t : List Char) (i : Nat) :
    b ++ '.' :: t ≠ gtNameOf b i := by
  rw [gtNameOf]
  intro h
  have h0 : b ++ ('.' :: t) = b ++ ('_' :: ("line".data ++ (pad3 i ++ ".gt.txt".data))) := by
    simpa [List.append_assoc] using h
  have h1 := List.append_cancel_left h0
  simp at h1

lemma ext_head_dot : ∀ ext ∈ IMG_EXTS, ∃ t, ext = '.' :: t := by
  intro ext hext
  fin_cases hext
  · exact ⟨"png".data, rfl⟩
  · exact ⟨"jpg".data, rfl⟩
  · exact ⟨"jpeg".data, rfl⟩
  · exact ⟨"tif".data, rfl⟩
  · exact ⟨"tiff".data, rfl⟩
  · exact ⟨"PNG".data, rfl⟩
  · exact ⟨"JPG".data, rfl⟩
  · exact ⟨"JPEG".data, rfl⟩

lemma ext_ne_gtTxt : ∀ ext ∈ IMG_EXTS, ext ≠ ".gt.txt".data := by
  intro ext hext
  fin_cases hext <;> decide

lemma lookupF_append (a b : List (FName × FData)) (nm : FName) :
    lookupF (a ++ b) nm =
      match lookupF a nm with
      | some d => some d
      | none => lookupF b nm := by
  induction a with
  | nil => rfl
  | cons p rest ih =>
    by_cases hp : p.1 = nm
    · obtain ⟨n, d⟩ := p
      simp only [List.cons_append, lookupF, if_pos hp]
    · obtain ⟨n, d⟩ := p
      simp only [List.cons_append, lookupF, if_neg hp]
      exact ih

lemma lookupF_filter_keep (fs : List (FName × FData)) (q : FName × FData → Bool)
    (nm : FName) (hq : ∀ p : FName × FData, p.1 = nm → q p = true) :
    lookupF (fs.filter q) nm = lookupF fs nm := by
  induction fs with
  | nil => rfl
  | cons p rest ih =>
    rw [List.filter_cons]
    by_cases hp : p.1 = nm
    · rw [if_pos (hq p hp)]
      obtain ⟨n, d⟩ := p
      rw [lookupF, lookupF, if_pos hp, if_pos hp]
    · by_cases hqp : q p = true
      · rw [if_pos hqp]
        obtain ⟨n, d⟩ := p
        rw [lookupF, lookupF, if_neg hp, if_neg hp]
        exact ih
      · rw [if_neg hqp]
        obtain ⟨n, d⟩ := p
        rw [lookupF, if_neg hp]
        exact ih

lemma lookupF_filter_drop (fs : List (FName × FData)) (q : FName × FData → Bool)
    (nm : FName) (hq : ∀ p : FName × FData, p.1 = nm → q p = false) :
    lookupF (fs.filter q) nm = none := by
  induction fs with
  | nil => rfl
  | cons p rest ih =>
    rw [List.filter_cons]
    by_cases hp : p.1 = nm
    · rw [hq p hp]
      simp only [Bool.false_eq_true, if_false]
      exact ih
    · by_cases hqp : q p = true
      · rw [if_pos hqp]
        obtain ⟨n, d⟩ := p
        rw [lookupF, if_neg hp]
        exact ih
      · rw [if_neg hqp]
        exact ih

lemma lookupF_setF_self (fs : List (FName × FData)) (nm : FName) (d : FData) :
    lookupF (setF fs nm d) nm = some d := by
  rw [setF, lookupF_append]
  rw [lookupF_filter_drop _ _ _ fun p hp => by simp [hp]]
  simp [lookupF]

lemma lookupF_setF_ne (fs : List (FName × FData)) (nm nm' : FName) (d : FData)
    (h : nm ≠ nm') : lookupF (setF fs nm d) nm' = lookupF fs nm' := by
  rw [setF, lookupF_append]
  rw [lookupF_filter_keep _ _ _ fun p hp => by simp [hp]; exact fun he => h he.symm]
  have hlast : lookupF [(nm, d)] nm' = none := by
    simp [lookupF, h]
  rw [hlast]
  cases lookupF fs nm' <;> rfl

lemma lookupF_removeF_self (fs : List (FName × FData)) (nm : FName) :
    lookupF (removeF fs nm) nm = none := by
  rw [removeF]
  exact lookupF_filter_drop _ _ _ fun p hp => by simp [hp]

lemma lookupF_removeF_ne (fs : List (FName × FData)) (nm nm' : FName) (h : nm ≠ nm') :
    lookupF (removeF fs nm) nm' = lookupF fs nm' := by
  rw [removeF]
  exact lookupF_filter_keep _ _ _ fun p hp => by simp [hp]; exact fun he => h he.symm

lemma applyWrites_append (fs : List (FName × FData)) (ws1 ws2 : List (FName × FData)) :
    applyWrites fs (ws1 ++ ws2) = applyWrites (applyWrites fs ws1) ws2 := by
  induction ws1 generalizing fs with
  | nil => simp [applyWrites]
  | cons w ws ih =>
    obtain ⟨nm, d⟩ := w
    simp only [List.cons_append, applyWrites]
    exact ih _

lemma lookupF_applyWrites_frame (fs : List (FName × FData)) (ws : List (FName × FData))
    (nm : FName) (h : ∀ w ∈ ws, w.1 ≠ nm) :
    lookupF (applyWrites fs ws) nm = lookupF fs nm := by
  induction ws generalizing fs with
  | nil => rfl
  | cons w ws ih =>
    obtain ⟨n, d⟩ := w
    rw [applyWrites]
    rw [ih _ fun w hw => h w (List.mem_cons_of_mem _ hw)]
    exact lookupF_setF_ne fs n nm d (h (n, d) (List.mem_cons_self _ _))

lemma pyEnum_length (k : Nat) (l : List α) : (pyEnum k l).length = l.length := by
  induction l generalizing k with
  | nil => rfl
  | cons a as ih => simp [pyEnum, ih]

lemma mem_pyEnum_ge {k : Nat} {l : List α} {p : Nat × α} (h : p ∈ pyEnum k l) : k ≤ p.1 := by
  induction l generalizing k with
  | nil => simp [pyEnum] at h
  | cons a as ih =>
    rw [pyEnum] at h
    rcases List.mem_cons.mp h with h1 | h1
    · subst h1; exact Nat.le_refl _
    · exact Nat.le_of_succ_le (ih h1)

lemma pyEnum_pairwise (k : Nat) (l : List α) :
    List.Pairwise (fun p q => p.1 < q.1) (pyEnum k l) := by
  induction l generalizing k with
  | nil => exact List.Pairwise.nil
  | cons a as ih =>
    rw [pyEnum]
    exact List.Pairwise.cons (fun q hq => Nat.lt_of_succ_le (mem_pyEnum_ge hq)) (ih (k + 1))

lemma pyEnum_snd_unique {k : Nat} {l : List α} {i : Nat} {t t' : α}
    (h1 : (i, t) ∈ pyEnum k l) (h2 : (i, t') ∈ pyEnum k l) : t = t' := by
  induction l generalizing k with
  | nil => simp [pyEnum] at h1
  | cons a as ih =>
    rw [pyEnum] at h1 h2
    rcases List.mem_cons.mp h1 with g1 | g1 <;> rcases List.mem_cons.mp h2 with g2 | g2
    · rw [Prod.mk.injEq] at g1 g2
      rw [g1.2, g2.2]
    · exfalso
      have := mem_pyEnum_ge g2
      rw [Prod.mk.injEq] at g1
      omega
    · exfalso
      have := mem_pyEnum_ge g1
      rw [Prod.mk.injEq] at g2
      omega
    · exact ih g1 g2

lemma mem_pyEnum_snd {k : Nat} {l : List α} {p : Nat × α} (h : p ∈ pyEnum k l) : p.2 ∈ l := by
  induction l generalizing k with
  | nil => simp [pyEnum] at h
  | cons a as ih =>
    rw [pyEnum] at h
    rcases List.mem_cons.mp h with h1 | h1
    · subst h1; exact List.mem_cons_self _ _
    · exact List.mem_cons_of_mem _ (ih h1)

lemma mem_pyEnum_of_mem {l : List α} {t : α} (h : t ∈ l) (k : Nat) :
    ∃ i, k ≤ i ∧ (i, t) ∈ pyEnum k l := by
  induction l generalizing k with
  | nil => simp at h
  | cons a as ih =>
    rcases List.mem_cons.mp h with h1 | h1
    · subst h1
      exact ⟨k, Nat.le_refl _, by rw [pyEnum]; exact List.mem_cons_self _ _⟩
    · obtain ⟨i, hk, hm⟩ := ih h1 (k + 1)
      exact ⟨i, Nat.le_of_succ_le hk, by rw [pyEnum]; exact List.mem_cons_of_mem _ hm⟩

lemma lineWrites_names {base : FName} {w h n : Nat} {p : Nat × FName}
    {e : FName × FData} (he : e ∈ lineWrites base w h n p) :
    e.1 = imgNameOf base p.1 ∨ e.1 = gtNameOf base p.1 := by
  rw [lineWrites] at he
  rcases List.mem_cons.mp he with h1 | h1
  · left; rw [h1]
  · rcases List.mem_cons.mp h1 with h2 | h2
    · right; rw [h2]
    · simp at h2

lemma lookupF_emitOutputs_of_mem (base : FName) (w h : Nat) (lines : List FName)
    (work : List (FName × FData)) (i : Nat) (t : FName)
    (hmem : (i, t) ∈ pyEnum 1 lines) (hne : t ≠ []) :
    lookupF (applyWrites work (emitOutputs base w h lines)) (imgNameOf base i) =
      some (FData.img w (y_end h (line_height h lines.length) lines.length i -
                         y_start (line_height h lines.length) i)) ∧
    lookupF (applyWrites work (emitOutputs base w h lines)) (gtNameOf base i) =
      some (FData.txt (t ++ ['\n'])) := by
  have hkept : (i, t) ∈ (pyEnum 1 lines).filter fun p => !p.2.isEmpty := by
    apply List.mem_filter.mpr
    refine ⟨hmem, ?_⟩
    simp [hne]
  obtain ⟨l1, l2, hsplit⟩ := List.append_of_mem hkept
  have hpw : List.Pairwise (fun p q : Nat × FName => p.1 < q.1)
      ((pyEnum 1 lines).filter fun p => !p.2.isEmpty) :=
    (pyEnum_pairwise 1 lines).filter _
  rw [hsplit] at hpw
  have hl2 : ∀ q ∈ l2, i < q.1 := by
    have hsub : ((i, t) :: l2).Pairwise (fun p q : Nat × FName => p.1 < q.1) :=
      hpw.sublist (List.sublist_append_right l1 _)
    exact fun q hq => (List.pairwise_cons.mp hsub).1 q hq
  have hemit : emitOutputs base w h lines =
      (l1.flatMap (lineWrites base w h lines.length) ++
        lineWrites base w h lines.length (i, t)) ++
      l2.flatMap (lineWrites base w h lines.length) := by
    rw [emitOutputs, hsplit]
    simp [List.flatMap_append, List.flatMap_cons, List.append_assoc]
  rw [hemit, applyWrites_append]
  have hframe2 : ∀ e ∈ l2.flatMap (lineWrites base w h lines.length),
      e.1 ≠ imgNameOf base i ∧ e.1 ≠ gtNameOf base i := by
    intro e he
    obtain ⟨q, hq, hqe⟩ := List.mem_flatMap.mp he
    have hqi : i < q.1 := hl2 q hq
    rcases lineWrites_names hqe with h1 | h1
    · constructor
      · rw [h1]
        intro hcon
        exact absurd (imgNameOf_inj hcon) (by omega)
      · rw [h1]
        exact imgNameOf_ne_gtNameOf base base q.1 i
    · constructor
      · rw [h1]
        intro hcon
        exact (imgNameOf_ne_gtNameOf base base i q.1) hcon.symm
      · rw [h1]
        intro hcon
        exact absurd (gtNameOf_inj hcon) (by omega)
  have happ : applyWrites work
      (l1.flatMap (lineWrites base w h lines.length) ++
        lineWrites base w h lines.length (i, t)) =
      setF (setF (applyWrites work (l1.flatMap (lineWrites base w h lines.length)))
        (imgNameOf base i)
        (FData.img w (y_end h (line_height h lines.length) lines.length i -
                      y_start (line_height h lines.length) i)))
        (gtNameOf base i) (FData.txt (t ++ ['\n'])) := by
    rw [applyWrites_append]
    rfl
  constructor
  · rw [lookupF_applyWrites_frame _ _ _ fun e he => (hframe2 e he).1]
    rw [happ]
    rw [lookupF_setF_ne _ _ _ _ (fun hcon => (imgNameOf_ne_gtNameOf base base i i) hcon.symm)]
    exact lookupF_setF_self _ _ _
  · rw [lookupF_applyWrites_frame _ _ _ fun e he => (hframe2 e he).2]
    rw [happ]
    exact lookupF_setF_self _ _ _

lemma firstImg_some_spec (work : List (FName × FData)) (base : FName) :
    ∀ (exts : List FName) (nm : FName) (d : FData),
      firstImg work base exts = some (nm, d) →
      ∃ k, k < exts.length ∧ nm = base ++ exts.getD k [] ∧ lookupF work nm = some d ∧
        ∀ j, j < k → lookupF work (base ++ exts.getD j []) = none := by
  intro exts
  induction exts with
  | nil => intro nm d h; simp [firstImg] at h
  | cons ext rest ih =>
    intro nm d h
    rw [firstImg] at h
    cases hl : lookupF work (base ++ ext) with
    | some d0 =>
      rw [hl] at h
      injection h with h1
      injection h1 with h2 h3
      refine ⟨0, by simp, by simp [h2.symm], ?_, ?_⟩
      · rw [h2] at hl
        rw [h3] at hl
        exact hl
      intro j hj
      omega
    | none =>
      rw [hl] at h
      obtain ⟨k, hk, hnm, hlook, hprev⟩ := ih nm d h
      refine ⟨k + 1, by simpa using Nat.succ_lt_succ hk, by simpa using hnm, hlook, ?_⟩
      intro j hj
      cases j with
      | zero => simpa using hl
      | succ j' => simpa using hprev j' (by omega)

lemma firstImg_none_spec (work : List (FName × FData)) (base : FName) :
    ∀ exts : List FName, (∀ ext ∈ exts, lookupF work (base ++ ext) = none) →
      firstImg work base exts = none := by
  intro exts
  induction exts with
  | nil => intro _; rfl
  | cons ext rest ih =>
    intro h
    rw [firstImg]
    rw [h ext (List.mem_cons_self _ _)]
    exact ih fun e he => h e (List.mem_cons_of_mem _ he)

lemma findImage_shape {work : List (FName × FData)} {base nm : FName} {d : FData}
    (h : findImage work base = some (nm, d)) :
    ∃ ext ∈ IMG_EXTS, nm = base ++ ext ∧ lookupF work nm = some d := by
  obtain ⟨k, hk, hnm, hlook, _⟩ := firstImg_some_spec work base IMG_EXTS nm d h
  refine ⟨IMG_EXTS.getD k [], ?_, hnm, hlook⟩
  rw [List.getD_eq_getElem _ _ hk]
  exact List.getElem_mem hk

lemma emitOutputs_names {base : FName} {w h : Nat} {lines : List FName}
    {e : FName × FData} (he : e ∈ emitOutputs base w h lines) :
    ∃ i, e.1 = imgNameOf base i ∨ e.1 = gtNameOf base i := by
  rw [emitOutputs] at he
  obtain ⟨q, _, hqe⟩ := List.mem_flatMap.mp he
  exact ⟨q.1, lineWrites_names hqe⟩

lemma processTry_err_none_inv (work backup : List (FName × FData)) (imgName base : FName)
    (lines : List FName) (h : (processTry work backup imgName base lines).err = none) :
    ∃ w hh dImg dGt,
      lookupF work imgName = some (FData.img w hh) ∧
      lines.length ≠ 0 ∧
      lookupF (applyWrites work (emitOutputs base w hh lines)) imgName = some dImg ∧
      lookupF (removeF (applyWrites work (emitOutputs base w hh lines)) imgName)
        (base ++ ".gt.txt".data) = some dGt ∧
      processTry work backup imgName base lines =
        ⟨removeF (removeF (applyWrites work (emitOutputs base w hh lines)) imgName)
           (base ++ ".gt.txt".data),
         setF (setF backup imgName dImg) (base ++ ".gt.txt".data) dGt,
         emittedCount lines, none⟩ := by
  rw [processTry] at h
  cases h0 : lookupF work imgName with
  | none =>
    rw [h0] at h
    exact Option.noConfusion h
  | some d0 =>
    cases d0 with
    | txt c =>
      simp only [h0] at h
      exact Option.noConfusion h
    | img w hh =>
      simp only [h0] at h
      by_cases hlen : lines.length = 0
      · rw [if_pos hlen] at h
        exact Option.noConfusion h
      · rw [if_neg hlen] at h
        cases h1 : lookupF (applyWrites work (emitOutputs base w hh lines)) imgName with
        | none =>
          simp only [h1] at h
          exact Option.noConfusion h
        | some dImg =>
          simp only [h1] at h
          cases h2 : lookupF (removeF (applyWrites work (emitOutputs base w hh lines)) imgName)
              (base ++ ".gt.txt".data) with
          | none =>
            simp only [h2] at h
            exact Option.noConfusion h
          | some dGt =>
            refine ⟨w, hh, dImg, dGt, rfl, hlen, h1, h2, ?_⟩
            rw [processTry]
            simp only [h0, if_neg hlen, h1, h2]

lemma emit_frame (base : FName) (w h : Nat) (lines : List FName)
    (work : List (FName × FData)) (nm : FName)
    (hnOut : ∀ i, nm ≠ imgNameOf base i ∧ nm ≠ gtNameOf base i) :
    lookupF (applyWrites work (emitOutputs base w h lines)) nm = lookupF work nm := by
  apply lookupF_applyWrites_frame
  intro e he
  obtain ⟨i, hi⟩ := emitOutputs_names he
  rcases hi with h1 | h1 <;> rw [h1]
  · exact fun hc => (hnOut i).1 hc.symm
  · exact fun hc => (hnOut i).2 hc.symm

lemma processTry_work_frame (work backup : List (FName × FData)) (inm base : FName)
    (lines : List FName) (nm : FName) (hnImg : nm ≠ inm)
    (hnGt : nm ≠ base ++ ".gt.txt".data)
    (hnOut : ∀ i, nm ≠ imgNameOf base i ∧ nm ≠ gtNameOf base i) :
    lookupF (processTry work backup inm base lines).work nm = lookupF work nm := by
  rw [processTry]
  split
  · rfl
  · rfl
  · rename_i w hh heq
    split
    · rfl
    · have hw1 := emit_frame base w hh lines work nm hnOut
      dsimp only
      split
      · exact hw1
      · split
        · show lookupF (removeF (applyWrites work (emitOutputs base w hh lines)) inm) nm
            = lookupF work nm
          rw [lookupF_removeF_ne _ _ _ fun hc => hnImg hc.symm]
          exact hw1
        · show lookupF (removeF (removeF (applyWrites work (emitOutputs base w hh lines)) inm)
            (base ++ ".gt.txt".data)) nm = lookupF work nm
          rw [lookupF_removeF_ne _ _ _ fun hc => hnGt hc.symm]
          rw [lookupF_removeF_ne _ _ _ fun hc => hnImg hc.symm]
          exact hw1

lemma step_none (st : St) (rec : FName × List FName)
    (h : findImage st.work rec.1 = none) :
    step st rec = { st with errors := st.errors + 1 } := by
  rw [step, h]

lemma step_some_ok (st : St) (rec : FName × List FName) (inm : FName) (d : FData)
    (h : findImage st.work rec.1 = some (inm, d))
    (herr : (processTry st.work st.backup inm rec.1 rec.2).err = none) :
    step st rec =
      { st with work := (processTry st.work st.backup inm rec.1 rec.2).work,
                backup := (processTry st.work st.backup inm rec.1 rec.2).backup,
                totalSplit := st.totalSplit + (processTry st.work st.backup inm rec.1 rec.2).emitted,
                succRecords := st.succRecords + 1 } := by
  rw [step, h]
  dsimp only
  rw [herr]

lemma step_some_err (st : St) (rec : FName × List FName) (inm : FName) (d : FData)
    (e : PErr) (h : findImage st.work rec.1 = some (inm, d))
    (herr : (processTry st.work st.backup inm rec.1 rec.2).err = some e) :
    step st rec =
      { st with work := (processTry st.work st.backup inm rec.1 rec.2).work,
                backup := (processTry st.work st.backup inm rec.1 rec.2).backup,
                totalSplit := st.totalSplit + (processTry st.work st.backup inm rec.1 rec.2).emitted,
                errors := st.errors + 1 } := by
  rw [step, h]
  dsimp only
  rw [herr]

lemma step_backupExists (st : St) (rec : FName × List FName) :
    (step st rec).backupExists = st.backupExists := by
  rw [step]
  split
  · rfl
  · dsimp only
    split <;> rfl

lemma step_work_frame (st : St) (rec : FName × List FName) (nm : FName)
    (h : UntouchedName nm rec) :
    lookupF (step st rec).work nm = lookupF st.work nm := by
  cases hfi : findImage st.work rec.1 with
  | none => rw [step_none st rec hfi]
  | some p =>
    obtain ⟨inm, d⟩ := p
    obtain ⟨ext, hext, hinm, _⟩ := findImage_shape hfi
    have hnImg : nm ≠ inm := by rw [hinm]; exact h.1 ext hext
    have hfr := processTry_work_frame st.work st.backup inm rec.1 rec.2 nm hnImg h.2.1 h.2.2
    cases herr : (processTry st.work st.backup inm rec.1 rec.2).err with
    | none => rw [step_some_ok st rec inm d hfi herr]; exact hfr
    | some e => rw [step_some_err st rec inm d e hfi herr]; exact hfr

lemma runRecords_cons (r : FName × List FName) (rs : List (FName × List FName)) (st : St) :
    runRecords (r :: rs) st = runRecords rs (step st r) := rfl

lemma runRecords_backupExists (recs : List (FName × List FName)) (st : St) :
    (runRecords recs st).backupExists = st.backupExists := by
  induction recs generalizing st with
  | nil => rfl
  | cons r rs ih => rw [runRecords_cons, ih, step_backupExists]

lemma runRecords_work_frame (recs : List (FName × List FName)) (st : St) (nm : FName)
    (h : ∀ rec ∈ recs, UntouchedName nm rec) :
    lookupF (runRecords recs st).work nm = lookupF st.work nm := by
  induction recs generalizing st with
  | nil => rfl
  | cons r rs ih =>
    rw [runRecords_cons]
    rw [ih _ fun rec hrec => h rec (List.mem_cons_of_mem _ hrec)]
    exact step_work_frame st r nm (h r (List.mem_cons_self _ _))

lemma y_end_le (H N i : Nat) (hi : i ≤ N) : y_end H (line_height H N) N i ≤ H := by
  rw [y_end]
  split
  · calc i * line_height H N ≤ N * line_height H N := Nat.mul_le_mul_right _ hi
      _ = H / N * N := by rw [line_height, Nat.mul_comm]
      _ ≤ H := Nat.div_mul_le_self H N
  · exact Nat.le_refl H

lemma bands_cover (H N : Nat) (hN : 1 ≤ N) (y : Nat) :
    (∃ i, 1 ≤ i ∧ i ≤ N ∧ y_start (line_height H N) i ≤ y ∧ y < y_end H (line_height H N) N i)
      ↔ y < H := by
  constructor
  · rintro ⟨i, hi1, hiN, _, hlt⟩
    exact Nat.lt_of_lt_of_le hlt (y_end_le H N i hiN)
  · intro hy
    by_cases hlh : line_height H N = 0
    · refine ⟨N, hN, Nat.le_refl N, ?_, ?_⟩
      · rw [y_start, hlh, Nat.mul_zero]
        exact Nat.zero_le y
      · rw [y_end, if_neg (Nat.lt_irrefl N)]
        exact hy
    · have hlt0 : 0 < line_height H N := Nat.pos_of_ne_zero hlh
      have hy1 : y / line_height H N = y / line_height H N := rfl
      obtain ⟨q, hq0⟩ : ∃ q, y / line_height H N = q := ⟨_, rfl⟩
      have hqr : y = line_height H N * q + y % line_height H N := by
        rw [← hq0]
        exact (Nat.div_add_mod y _).symm
      have hrlt : y % line_height H N < line_height H N := Nat.mod_lt y hlt0
      by_cases hq : q + 1 < N
      · refine ⟨q + 1, Nat.succ_le_succ (Nat.zero_le _), Nat.le_of_lt hq, ?_, ?_⟩
        · have e1 : (q + 1 - 1) * line_height H N = line_height H N * q := by
            rw [Nat.add_sub_cancel, Nat.mul_comm]
          rw [y_start, e1, hqr]
          exact Nat.le_add_right _ _
        · have e2 : (q + 1) * line_height H N = line_height H N * q + line_height H N := by
            ring
          rw [y_end, if_pos hq, e2, hqr]
          exact Nat.add_lt_add_left hrlt _
      · refine ⟨N, hN, Nat.le_refl N, ?_, ?_⟩
        · have h2 : q * line_height H N ≤ y := by
            rw [← hq0]
            exact Nat.div_mul_le_self y (line_height H N)
          rw [y_start]
          exact Nat.le_trans (Nat.mul_le_mul_right _ (by omega)) h2
        · rw [y_end, if_neg (Nat.lt_irrefl N)]
          exact hy

lemma bands_disjoint (H N i j : Nat) (hij : i < j) (hjN : j ≤ N) :
    y_end H (line_height H N) N i ≤ y_start (line_height H N) j := by
  rw [y_end, if_pos (by omega : i < N), y_start]
  exact Nat.mul_le_mul_right _ (by omega)

lemma bands_contiguous (H N i : Nat) (hi : i < N) :
    y_end H (line_height H N) N i = y_start (line_height H N) (i + 1) := by
  rw [y_end, if_pos hi, y_start, Nat.add_sub_cancel]

lemma cropRects_length (w h n : Nat) : (cropRects w h n).length = n := by
  simp [cropRects]

lemma cropRects_getD (w h n k : Nat) (hk : k < n) :
    (cropRects w h n).getD k (0, 0, 0, 0) =
      (0, y_start (line_height h n) (k + 1), w, y_end h (line_height h n) n (k + 1)) := by
  rw [cropRects]
  rw [List.getD_eq_getElem _ _ (by simpa using hk)]
  simp

lemma scanLines_nonempty (content : List Char) : ∀ t ∈ scanLines content, t ≠ [] := by
  intro t ht
  rw [scanLines] at ht
  have := (List.mem_filter.mp ht).2
  simpa using this

lemma classify_some_inv {nm : FName} {d : FData} {rec : FName × List FName}
    (h : classify nm d = some rec) :
    ∃ content, d = FData.txt content ∧ hasSuf ".gt.txt".data nm = true ∧
      MAX_LINES < (scanLines content).length ∧
      rec = (gtBaseName nm, scanLines content) := by
  cases d with
  | img w hh =>
    simp only [classify.eq_def] at h
    exact Option.noConfusion h
  | txt content =>
    simp only [classify.eq_def] at h
    by_cases h1 : hasSuf ".gt.txt".data nm = true
    · rw [if_pos h1] at h
      by_cases h2 : MAX_LINES < (scanLines content).length
      · rw [if_pos h2] at h
        injection h with h3
        exact ⟨content, rfl, h1, h2, h3.symm⟩
      · rw [if_neg h2] at h
        exact Option.noConfusion h
    · rw [if_neg h1] at h
      exact Option.noConfusion h

lemma classify_pos {nm : FName} {content : List Char}
    (hsuf : hasSuf ".gt.txt".data nm = true)
    (hlen : MAX_LINES < (scanLines content).length) :
    classify nm (FData.txt content) = some (gtBaseName nm, scanLines content) := by
  simp only [classify.eq_def]
  rw [if_pos hsuf, if_pos hlen]

lemma classify_neg {nm : FName} {content : List Char}
    (hlen : (scanLines content).length ≤ MAX_LINES) :
    classify nm (FData.txt content) = none := by
  simp only [classify.eq_def]
  by_cases hsuf : hasSuf ".gt.txt".data nm = true
  · rw [if_pos hsuf, if_neg (by omega)]
  · rw [if_neg hsuf]

lemma scanWork_append (xs ys : List (FName × FData)) :
    scanWork (xs ++ ys) = scanWork xs ++ scanWork ys := by
  rw [scanWork, scanWork, scanWork, List.filterMap_append]

lemma scanWork_lines_nonempty (work : List (FName × FData)) :
    ∀ rec ∈ scanWork work, ∀ t ∈ rec.2, t ≠ [] := by
  intro rec hrec t ht
  rw [scanWork] at hrec
  obtain ⟨p, _, hp⟩ := List.mem_filterMap.mp hrec
  obtain ⟨content, _, _, _, hrec2⟩ := classify_some_inv hp
  rw [hrec2] at ht
  exact scanLines_nonempty content t ht

lemma pyEnum_filter_all (lines : List FName) (h : ∀ t ∈ lines, t ≠ []) :
    ((pyEnum 1 lines).filter fun p => !p.2.isEmpty) = pyEnum 1 lines := by
  apply List.filter_eq_self.mpr
  intro p hp
  have := h p.2 (mem_pyEnum_snd hp)
  simpa using this

lemma emittedCount_all (lines : List FName) (h : ∀ t ∈ lines, t ≠ []) :
    emittedCount lines = lines.length := by
  rw [emittedCount, pyEnum_filter_all lines h, pyEnum_length]

lemma flatMap_lineWrites_length (base : FName) (w h n : Nat) :
    ∀ kept : List (Nat × FName),
      (kept.flatMap (lineWrites base w h n)).length = 2 * kept.length := by
  intro kept
  induction kept with
  | nil => rfl
  | cons p ps ih =>
    rw [List.flatMap_cons, List.length_append, ih]
    rw [lineWrites]
    simp
    omega

lemma emitOutputs_length_all (base : FName) (w h : Nat) (lines : List FName)
    (hne : ∀ t ∈ lines, t ≠ []) :
    (emitOutputs base w h lines).length = 2 * lines.length := by
  rw [emitOutputs, flatMap_lineWrites_length, pyEnum_filter_all lines hne, pyEnum_length]

lemma mainRun_root_missing (work backup : List (FName × FData)) (bex : Bool) :
    mainRun false work backup bex = ⟨1, none, initSt work backup bex⟩ := rfl

lemma mainRun_true_eq (work backup : List (FName × FData)) (bex : Bool)
    (h : scanWork work ≠ []) :
    mainRun true work backup bex =
      ⟨0, some ⟨(scanWork work).length, "multiline_originals".data,
          countGtFiles (runRecords (scanWork work) (mkBackupDir (initSt work backup bex))).work⟩,
        runRecords (scanWork work) (mkBackupDir (initSt work backup bex))⟩ := by
  rw [mainRun]
  rw [if_pos rfl]
  dsimp only
  rw [if_neg (by simpa using h)]

lemma mainRun_true_empty (work backup : List (FName × FData)) (bex : Bool)
    (h : scanWork work = []) :
    mainRun true work backup bex = ⟨0, none, initSt work backup bex⟩ := by
  rw [mainRun]
  rw [if_pos rfl]
  dsimp only
  rw [if_pos (by simpa using h)]

lemma mainRun_true_exit (work backup : List (FName × FData)) (bex : Bool) :
    (mainRun true work backup bex).exitCode = 0 := by
  by_cases h : scanWork work = []
  · rw [mainRun_true_empty work backup bex h]
  · rw [mainRun_true_eq work backup bex h]

lemma mainRun_work_frame (work backup : List (FName × FData)) (bex : Bool) (nm : FName)
    (h : ∀ rec ∈ scanWork work, UntouchedName nm rec) :
    lookupF (mainRun true work backup bex).final.work nm = lookupF work nm := by
  by_cases he : scanWork work = []
  · rw [mainRun_true_empty work backup bex he]
    rfl
  · rw [mainRun_true_eq work backup bex he]
    exact runRecords_work_frame (scanWork work) _ nm h

lemma mainRun_backupExists (work backup : List (FName × FData)) (bex : Bool)
    (h : scanWork work ≠ []) :
    (mainRun true work backup bex).final.backupExists = true := by
  rw [mainRun_true_eq work backup bex h]
  show (runRecords (scanWork work) (mkBackupDir (initSt work backup bex))).backupExists = true
  rw [runRecords_backupExists]
  rfl

/-! ### Claim theorems -/

/-- C1: for every multi-line record with N at least 2 non-empty lines and a
paired image of height H at least 1 and width W, the splitter computes
line_height as H div N and produces N crop rectangles whose i-th entry is
(0, (i-1)*line_height, W, i*line_height) for i below N and
(0, (N-1)*line_height, W, H) for i = N; consecutive bands are contiguous,
bands are pairwise disjoint, their union is exactly the interval of rows
below H, and the last band's height is H - (N-1)*line_height. -/
theorem c1_crop_bands (W H N : Nat) (hN : 2 ≤ N) (hH : 1 ≤ H) :
    line_height H N = H / N ∧
    (cropRects W H N).length = N ∧
    (∀ k, k < N → (cropRects W H N).getD k (0, 0, 0, 0) =
      (0, y_start (line_height H N) (k + 1), W, y_end H (line_height H N) N (k + 1))) ∧
    (∀ i, 1 ≤ i → i < N →
      y_start (line_height H N) i = (i - 1) * line_height H N ∧
      y_end H (line_height H N) N i = i * line_height H N ∧
      y_end H (line_height H N) N i = y_start (line_height H N) (i + 1)) ∧
    y_end H (line_height H N) N N = H ∧
    (∀ i j, i < j → j ≤ N →
      y_end H (line_height H N) N i ≤ y_start (line_height H N) j) ∧
    (∀ y, (∃ i, 1 ≤ i ∧ i ≤ N ∧ y_start (line_height H N) i ≤ y ∧
        y < y_end H (line_height H N) N i) ↔ y < H) ∧
    y_end H (line_height H N) N N - y_start (line_height H N) N
      = H - (N - 1) * line_height H N := by
  refine ⟨rfl, cropRects_length W H N, fun k hk => cropRects_getD W H N k hk,
    ?_, ?_, ?_, ?_, ?_⟩
  · intro i hi1 hiN
    exact ⟨rfl, by rw [y_end, if_pos hiN], bands_contiguous H N i hiN⟩
  · rw [y_end, if_neg (Nat.lt_irrefl N)]
  · exact fun i j hij hjN => bands_disjoint H N i j hij hjN
  · exact fun y => bands_cover H N (by omega) y
  · rw [y_end, if_neg (Nat.lt_irrefl N), y_start]

/-- Witness for C1 at the concrete scenario of the specification: a
300 x 90 image split into 3 lines has 60..90 as its last band. -/
theorem c1_crop_bands_witness :
    (cropRects 300 90 3).getD 2 (0, 0, 0, 0) = (0, 60, 300, 90) := by
  have h := (c1_crop_bands 300 90 3 (by decide) (by decide)).2.2.1 2 (by decide)
  rw [h]
  decide

/-- C10: for a multi-line record whose image height H satisfies
1 <= H < N, line_height is 0, bands 1..N-1 are degenerate with
y_start = y_end = 0 yet still emitted as output pairs, band N alone spans
the rows below H, and the union guarantee still holds. -/
theorem c10_degenerate_bands (H N : Nat) (hH : 1 ≤ H) (hHN : H < N) :
    line_height H N = 0 ∧
    (∀ i, 1 ≤ i → i < N →
      y_start (line_height H N) i = 0 ∧ y_end H (line_height H N) N i = 0) ∧
    y_start (line_height H N) N = 0 ∧ y_end H (line_height H N) N N = H ∧
    (∀ base w lines, lines.length = N → (∀ t ∈ lines, t ≠ []) →
      (emitOutputs base w H lines).length = 2 * N ∧ emittedCount lines = N) ∧
    (∀ base w (lines : List FName) i t, lines.length = N →
      (i, t) ∈ pyEnum 1 lines → t ≠ [] → i < N →
      (imgNameOf base i, FData.img w 0) ∈ emitOutputs base w H lines) := by
  have hlh : line_height H N = 0 := Nat.div_eq_of_lt hHN
  refine ⟨hlh, ?_, ?_, ?_, ?_, ?_⟩
  · intro i hi1 hiN
    constructor
    · rw [y_start, hlh, Nat.mul_zero]
    · rw [y_end, if_pos hiN, hlh, Nat.mul_zero]
  · rw [y_start, hlh, Nat.mul_zero]
  · rw [y_end, if_neg (Nat.lt_irrefl N)]
  · intro base w lines hlen hne
    constructor
    · rw [emitOutputs_length_all base w H lines hne, hlen]
    · rw [emittedCount_all lines hne, hlen]
  · intro base w lines i t hlen hmem hne hiN
    rw [emitOutputs]
    apply List.mem_flatMap.mpr
    refine ⟨(i, t), List.mem_filter.mpr ⟨hmem, by simpa using hne⟩, ?_⟩
    have himg : y_end H (line_height H lines.length) lines.length i -
        y_start (line_height H lines.length) i = 0 := by
      rw [hlen, y_end, if_pos hiN, hlh, Nat.mul_zero, y_start, Nat.mul_zero]
    rw [lineWrites]
    rw [himg]
    exact List.mem_cons_self _ _

/-- Witness for C10 at H = 2, N = 5: the line height collapses to zero
and band 1 is degenerate while still producing its output pair. -/
theorem c10_degenerate_bands_witness :
    line_height 2 5 = 0 ∧
    (imgNameOf "p".data 1, FData.img 7 0) ∈ emitOutputs "p".data 7 2
      ["a".data, "b".data, "c".data, "d".data, "e".data] := by
  have h := c10_degenerate_bands 2 5 (by decide) (by decide)
  refine ⟨h.1, ?_⟩
  exact h.2.2.2.2.2 "p".data 7 ["a".data, "b".data, "c".data, "d".data, "e".data]
    1 "a".data (by decide) (by decide) (by decide) (by decide)

/-- C9: the derived base name is the stem with every occurrence of the
dot-g-t substring removed, not just the trailing one; it equals the
name with the .gt.txt suffix removed exactly when the remainder contains
no such occurrence, and the file a.gtx.gt.txt derives base name ax, so
its paired image and original annotation path are looked up under the
altered name. -/
theorem c9_basename_replace_all :
    (∀ X : List Char, gtBaseName (X ++ ".gt.txt".data) = X ↔ hasDotGt X = false) ∧
    (∀ X : List Char, pyStem (X ++ ".gt.txt".data) = X ++ ".gt".data ∧
      gtBaseName (X ++ ".gt.txt".data) = removeDotGt (X ++ ".gt".data)) ∧
    gtBaseName "a.gtx.gt.txt".data = "ax".data ∧
    "ax".data ≠ "a.gtx".data ∧
    gtBaseName "a.gtx.gt.txt".data ++ ".gt.txt".data ≠ "a.gtx.gt.txt".data := by
  refine ⟨gtBaseName_append_iff, ?_, by decide, by decide, by decide⟩
  intro X
  refine ⟨pyStem_gtTxt X, ?_⟩
  rw [gtBaseName, pyStem_gtTxt X]

/-- Witness for C9: a stem without inner dot-g-t keeps its name, by the
equivalence applied at the concrete stem ab. -/
theorem c9_basename_replace_all_witness :
    gtBaseName ("ab".data ++ ".gt.txt".data) = "ab".data :=
  (c9_basename_replace_all.1 "ab".data).mpr (by decide)

/-- C2 counterexample: the directory holds multi-line record x and a
single-line record x_line001; splitting x writes its first output pair at
exactly the names of the single-line record, so a file whose stripped
line count is 1 does have an output performed at its path (its content
changes from old to A), refuting the claim that no output or move is
performed for single-line files. -/
theorem c2_scanner_counterexample :
    (scanLines "old\n".data).length ≤ MAX_LINES ∧
    classify "x_line001.gt.txt".data (FData.txt "old\n".data) = none ∧
    lookupF [("x.gt.txt".data, FData.txt "A\nB\n".data),
             ("x.png".data, FData.img 10 10),
             ("x_line001.gt.txt".data, FData.txt "old\n".data),
             ("x_line001.png".data, FData.img 5 5)] "x_line001.gt.txt".data
      = some (FData.txt "old\n".data) ∧
    lookupF (mainRun true
        [("x.gt.txt".data, FData.txt "A\nB\n".data),
         ("x.png".data, FData.img 10 10),
         ("x_line001.gt.txt".data, FData.txt "old\n".data),
         ("x_line001.png".data, FData.img 5 5)] [] false).final.work
      "x_line001.gt.txt".data = some (FData.txt "A\n".data) ∧
    FData.txt "A\n".data ≠ FData.txt "old\n".data := by
  decide

/-- C2 (amended): the scanner strips each line, discards empties, and
classifies a file as multi-line exactly when the remaining count exceeds
MAX_LINES, adding it to the set in scan order with its ordered stripped
lines; files with count at most MAX_LINES yield no record of their own,
and such a file is left untouched provided its name collides with no
multi-line record's candidate image paths, recomputed annotation path,
or output names. -/
theorem c2_scanner_amended :
    (∀ nm content, hasSuf ".gt.txt".data nm = true →
      (MAX_LINES < (scanLines content).length →
        classify nm (FData.txt content) = some (gtBaseName nm, scanLines content)) ∧
      ((scanLines content).length ≤ MAX_LINES →
        classify nm (FData.txt content) = none)) ∧
    (∀ content t, t ∈ scanLines content → t ≠ []) ∧
    (∀ content, scanLines content =
      ((pyLines content).map pyStrip).filter fun t => !t.isEmpty) ∧
    (∀ xs ys, scanWork (xs ++ ys) = scanWork xs ++ scanWork ys) ∧
    (∀ work rec, rec ∈ scanWork work →
      ∃ p ∈ work, classify p.1 p.2 = some rec) ∧
    (∀ work backup bex nm, (∀ rec ∈ scanWork work, UntouchedName nm rec) →
      lookupF (mainRun true work backup bex).final.work nm = lookupF work nm) := by
  refine ⟨?_, scanLines_nonempty, fun _ => rfl, scanWork_append, ?_, mainRun_work_frame⟩
  · intro nm content hsuf
    exact ⟨fun hlen => classify_pos hsuf hlen, fun hlen => classify_neg hlen⟩
  · intro work rec hrec
    rw [scanWork] at hrec
    obtain ⟨p, hp, hcl⟩ := List.mem_filterMap.mp hrec
    exact ⟨p, hp, hcl⟩

/-- Witness for C2 (amended): the classifier at a concrete two-line file. -/
theorem c2_scanner_amended_witness :
    classify "p.gt.txt".data (FData.txt "A\nB\n".data)
      = some ("p".data, ["A".data, "B".data]) := by
  have h := (c2_scanner_amended.1 "p.gt.txt".data "A\nB\n".data (by decide)).1 (by decide)
  rw [h]
  decide

/-- C3: after a successful split, the original image and the recomputed
annotation file are no longer in the working directory and are present
unmodified in the backup, under their own names; the backup directory is
created before processing and its creation is idempotent. -/
theorem c3_originals_moved (st : St) (base : FName) (lines : List FName)
    (inm : FName) (d0 : FData)
    (hfind : findImage st.work base = some (inm, d0))
    (hok : (processTry st.work st.backup inm base lines).err = none) :
    lookupF (processTry st.work st.backup inm base lines).work inm = none ∧
    lookupF (processTry st.work st.backup inm base lines).work
      (base ++ ".gt.txt".data) = none ∧
    lookupF (processTry st.work st.backup inm base lines).backup inm
      = lookupF st.work inm ∧
    lookupF (processTry st.work st.backup inm base lines).backup
      (base ++ ".gt.txt".data) = lookupF st.work (base ++ ".gt.txt".data) ∧
    (mkBackupDir st).backupExists = true ∧
    mkBackupDir (mkBackupDir st) = mkBackupDir st ∧
    (∀ work backup bex, scanWork work ≠ [] →
      (mainRun true work backup bex).final.backupExists = true) := by
  obtain ⟨w, hh, dImg, dGt, h0, hlen, h1, h2, heq⟩ :=
    processTry_err_none_inv st.work st.backup inm base lines hok
  obtain ⟨ext, hext, hinm, _⟩ := findImage_shape hfind
  obtain ⟨extTail, hextTail⟩ := ext_head_dot ext hext
  have hIG : inm ≠ base ++ ".gt.txt".data := by
    rw [hinm]
    intro hc
    exact ext_ne_gtTxt ext hext (List.append_cancel_left hc)
  have hnOutImg : ∀ i, inm ≠ imgNameOf base i ∧ inm ≠ gtNameOf base i := by
    intro i
    rw [hinm, hextTail]
    exact ⟨dot_start_ne_imgNameOf base extTail i, dot_start_ne_gtNameOf base extTail i⟩
  have hnOutGt : ∀ i, base ++ ".gt.txt".data ≠ imgNameOf base i ∧
      base ++ ".gt.txt".data ≠ gtNameOf base i := by
    intro i
    have hshape : ".gt.txt".data = '.' :: "gt.txt".data := rfl
    rw [hshape]
    exact ⟨dot_start_ne_imgNameOf base "gt.txt".data i,
      dot_start_ne_gtNameOf base "gt.txt".data i⟩
  have hfr1 : lookupF (applyWrites st.work (emitOutputs base w hh lines)) inm
      = lookupF st.work inm := emit_frame base w hh lines st.work inm hnOutImg
  have hfr2 : lookupF (applyWrites st.work (emitOutputs base w hh lines))
      (base ++ ".gt.txt".data) = lookupF st.work (base ++ ".gt.txt".data) :=
    emit_frame base w hh lines st.work _ hnOutGt
  rw [heq]
  refine ⟨?_, ?_, ?_, ?_, rfl, rfl, mainRun_backupExists⟩
  · show lookupF (removeF (removeF (applyWrites st.work (emitOutputs base w hh lines)) inm)
      (base ++ ".gt.txt".data)) inm = none
    rw [lookupF_removeF_ne _ _ _ fun hc => hIG hc.symm]
    exact lookupF_removeF_self _ _
  · exact lookupF_removeF_self _ _
  · show lookupF (setF (setF st.backup inm dImg) (base ++ ".gt.txt".data) dGt) inm
      = lookupF st.work inm
    rw [lookupF_setF_ne _ _ _ _ fun hc => hIG hc.symm]
    rw [lookupF_setF_self]
    rw [← hfr1, h1]
  · rw [lookupF_setF_self]
    rw [lookupF_removeF_ne _ _ _ hIG] at h2
    rw [← hfr2, h2]

/-- Witness for C3: a concrete successful split of record p moves its
image out of the working directory. -/
theorem c3_originals_moved_witness :
    lookupF (processTry [("p.gt.txt".data, FData.txt "A\nB\n".data),
        ("p.png".data, FData.img 4 4)] [] "p.png".data "p".data
        ["A".data, "B".data]).work "p.png".data = none :=
  (c3_originals_moved
    ⟨[("p.gt.txt".data, FData.txt "A\nB\n".data), ("p.png".data, FData.img 4 4)],
      [], true, 0, 0, 0⟩
    "p".data ["A".data, "B".data] "p.png".data (FData.img 4 4)
    (by decide) (by decide)).1

/-- C4: the run exits non-zero exactly when the ground-truth directory is
absent; with the directory present the exit code is 0 no matter what the
directory holds; a record whose try block raises has the exception
converted into an error count while keeping all effects performed so far
(no rollback), and the batch continues with the remaining records. -/
theorem c4_error_policy :
    (∀ work backup bex, (mainRun false work backup bex).exitCode = 1) ∧
    (∀ work backup bex, (mainRun true work backup bex).exitCode = 0) ∧
    (∀ st r rs, runRecords (r :: rs) st = runRecords rs (step st r)) ∧
    (∀ st rec, findImage st.work rec.1 = none →
      step st rec = { st with errors := st.errors + 1 }) ∧
    (∀ st rec inm d e, findImage st.work rec.1 = some (inm, d) →
      (processTry st.work st.backup inm rec.1 rec.2).err = some e →
      step st rec =
        { st with work := (processTry st.work st.backup inm rec.1 rec.2).work,
                  backup := (processTry st.work st.backup inm rec.1 rec.2).backup,
                  totalSplit := st.totalSplit +
                    (processTry st.work st.backup inm rec.1 rec.2).emitted,
                  errors := st.errors + 1 }) := by
  exact ⟨fun work backup bex => rfl, fun work backup bex => mainRun_true_exit work backup bex,
    fun st r rs => runRecords_cons r rs st, fun st rec h => step_none st rec h,
    fun st rec inm d e h herr => step_some_err st rec inm d e h herr⟩

/-- Witness for C4: concrete runs exit 1 without the directory and 0 with
it, even when the only record fails for lack of an image. -/
theorem c4_error_policy_witness :
    (mainRun false [] [] false).exitCode = 1 ∧
    (mainRun true [("m.gt.txt".data, FData.txt "A\nB\n".data)] [] false).exitCode = 0 :=
  ⟨c4_error_policy.1 [] [] false,
   c4_error_policy.2.1 [("m.gt.txt".data, FData.txt "A\nB\n".data)] [] false⟩

/-- C5: the paired image is resolved by trying the recognized extensions
in the fixed order png, jpg, jpeg, tif, tiff, PNG, JPG, JPEG, first
existing candidate winning; when no candidate exists the record changes
nothing except the error count and the batch continues with the next
record. -/
theorem c5_image_resolution :
    IMG_EXTS = [".png".data, ".jpg".data, ".jpeg".data, ".tif".data, ".tiff".data,
      ".PNG".data, ".JPG".data, ".JPEG".data] ∧
    (∀ work base nm d, findImage work base = some (nm, d) →
      ∃ k, k < IMG_EXTS.length ∧ nm = base ++ IMG_EXTS.getD k [] ∧
        lookupF work nm = some d ∧
        ∀ j, j < k → lookupF work (base ++ IMG_EXTS.getD j []) = none) ∧
    (∀ work base, (∀ ext ∈ IMG_EXTS, lookupF work (base ++ ext) = none) →
      findImage work base = none) ∧
    (∀ st rec, findImage st.work rec.1 = none →
      step st rec = { st with errors := st.errors + 1 }) ∧
    (∀ st r rs, runRecords (r :: rs) st = runRecords rs (step st r)) := by
  refine ⟨rfl, ?_, ?_, fun st rec h => step_none st rec h,
    fun st r rs => runRecords_cons r rs st⟩
  · intro work base nm d h
    exact firstImg_some_spec work base IMG_EXTS nm d h
  · intro work base h
    exact firstImg_none_spec work base IMG_EXTS h

/-- Witness for C5: a directory holding only the jpg candidate resolves
to it, and an empty directory resolves to no image. -/
theorem c5_image_resolution_witness :
    findImage [] "b".data = none :=
  c5_image_resolution.2.2.1 [] "b".data (by decide)

/-- C6: for every emitted line i of a record, the directory afterwards
holds exactly one image file named base_name, _line, i padded to three
digits, and .png (PNG regardless of the source extension) whose data is
the crop of band i, and one sibling annotation file with the .gt.txt
name whose entire content is the stripped line followed by exactly one
newline, both in the same working directory. -/
theorem c6_output_pairs (base : FName) (w h : Nat) (lines : List FName)
    (work : List (FName × FData)) (i : Nat) (t : FName)
    (hmem : (i, t) ∈ pyEnum 1 lines) (hne : t ≠ []) :
    imgNameOf base i = base ++ "_line".data ++ pad3 i ++ ".png".data ∧
    gtNameOf base i = base ++ "_line".data ++ pad3 i ++ ".gt.txt".data ∧
    lookupF (applyWrites work (emitOutputs base w h lines)) (imgNameOf base i) =
      some (FData.img w (y_end h (line_height h lines.length) lines.length i -
                         y_start (line_height h lines.length) i)) ∧
    lookupF (applyWrites work (emitOutputs base w h lines)) (gtNameOf base i) =
      some (FData.txt (t ++ ['\n'])) := by
  have h2 := lookupF_emitOutputs_of_mem base w h lines work i t hmem hne
  exact ⟨rfl, rfl, h2.1, h2.2⟩

/-- Witness for C6 at a concrete two-line record: line 1 yields the pair
p_line001.png and p_line001.gt.txt with content A and one newline. -/
theorem c6_output_pairs_witness :
    lookupF (applyWrites [] (emitOutputs "p".data 4 4 ["A".data, "B".data]))
      (gtNameOf "p".data 1) = some (FData.txt ("A".data ++ ['\n'])) :=
  (c6_output_pairs "p".data 4 4 ["A".data, "B".data] [] 1 "A".data
    (by decide) (by decide)).2.2.2

/-- C7 counterexample: with a single multi-line record whose image is
missing, no record is successfully split, yet the summary prints 1 as
the successfully-split count (the multi-line file count) and reports 1
annotation file; the count of records successfully split, 0, appears
nowhere in the summary, refuting the claim that it is reported. -/
theorem c7_summary_counterexample :
    (mainRun true [("m.gt.txt".data, FData.txt "A\nB\n".data)] [] false).summary
      = some ⟨1, "multiline_originals".data, 1⟩ ∧
    (mainRun true [("m.gt.txt".data, FData.txt "A\nB\n".data)] [] false).final.succRecords
      = 0 ∧
    (mainRun true [("m.gt.txt".data, FData.txt "A\nB\n".data)] [] false).final.errors
      = 1 ∧
    (1 : Nat) ≠ 0 := by
  decide

/-- C7 (amended): whenever at least one multi-line file is found, the
final summary reports the count of multi-line files found (printed
under the successfully-split label regardless of per-record failures),
the backup directory location, and the total count of .gt.txt files in
the working directory after the run; the count of records processed
without error is not separately reported. -/
theorem c7_summary_amended (work backup : List (FName × FData)) (bex : Bool)
    (h : scanWork work ≠ []) :
    (mainRun true work backup bex).summary =
      some ⟨(scanWork work).length, "multiline_originals".data,
        countGtFiles (mainRun true work backup bex).final.work⟩ ∧
    (mainRun true work backup bex).exitCode = 0 := by
  rw [mainRun_true_eq work backup bex h]
  exact ⟨rfl, rfl⟩

/-- Witness for C7 (amended) at the concrete one-record directory. -/
theorem c7_summary_amended_witness :
    (mainRun true [("m.gt.txt".data, FData.txt "A\nB\n".data)] [] false).exitCode = 0 :=
  (c7_summary_amended [("m.gt.txt".data, FData.txt "A\nB\n".data)] [] false
    (by decide)).2

/-- C8: records produced by the scanner have only non-empty lines, so
the defensive per-line skip for empty text never fires, and every
successfully processed record with N lines emits exactly N output pairs
(2 N written files). -/
theorem c8_defensive_skip :
    (∀ work rec, rec ∈ scanWork work → ∀ t ∈ rec.2, t ≠ []) ∧
    (∀ lines : List FName, (∀ t ∈ lines, t ≠ []) →
      ((pyEnum 1 lines).filter fun p => !p.2.isEmpty) = pyEnum 1 lines ∧
      emittedCount lines = lines.length) ∧
    (∀ base w h lines, (∀ t ∈ lines, t ≠ []) →
      (emitOutputs base w h lines).length = 2 * lines.length) := by
  refine ⟨scanWork_lines_nonempty, ?_, ?_⟩
  · intro lines h
    exact ⟨pyEnum_filter_all lines h, emittedCount_all lines h⟩
  · intro base w h lines hne
    exact emitOutputs_length_all base w h lines hne

/-- Witness for C8: a concrete two-line record emits two output pairs. -/
theorem c8_defensive_skip_witness :
    emittedCount ["A".data, "B".data] = 2 :=
  (c8_defensive_skip.2.1 ["A".data, "B".data] (by decide)).2
